import Mathlib

/-!
Verification development for the batched material-scattering core
(`src/materials.py` of torch-tracing).

The tensor code operates row-wise on N×3 batches; we embed a row as a
`Vec3` of real scalars and a batch as a function `Fin N → Vec3`.  Every
torch operation used by the code (elementwise arithmetic, per-row dot
products and norms, `torch.minimum`, `torch.sqrt`, `torch.abs`,
`torch.where`, `F.normalize`) acts independently per row, so each batched
function is the row-wise lifting of a scalar/vector function, which is how
the embedding is written.  `F.normalize(v, dim=-1)` divides by
`max(‖v‖₂, eps)` with `eps = 1e-12`; the embedding keeps that epsilon.
-/

namespace Materials

/-- A single row of an N×3 float tensor. -/
structure Vec3 where
  x : ℝ
  y : ℝ
  z : ℝ

theorem Vec3.ext_comp {v w : Vec3} (hx : v.x = w.x) (hy : v.y = w.y)
    (hz : v.z = w.z) : v = w := by
  cases v; cases w; cases hx; cases hy; cases hz; rfl

instance : Add Vec3 := ⟨fun v w => ⟨v.x + w.x, v.y + w.y, v.z + w.z⟩⟩

instance : Sub Vec3 := ⟨fun v w => ⟨v.x - w.x, v.y - w.y, v.z - w.z⟩⟩

instance : Neg Vec3 := ⟨fun v => ⟨-v.x, -v.y, -v.z⟩⟩

instance : SMul ℝ Vec3 := ⟨fun c v => ⟨c * v.x, c * v.y, c * v.z⟩⟩

@[simp] theorem Vec3.add_x (v w : Vec3) : (v + w).x = v.x + w.x := rfl

@[simp] theorem Vec3.add_y (v w : Vec3) : (v + w).y = v.y + w.y := rfl

@[simp] theorem Vec3.add_z (v w : Vec3) : (v + w).z = v.z + w.z := rfl

@[simp] theorem Vec3.sub_x (v w : Vec3) : (v - w).x = v.x - w.x := rfl

@[simp] theorem Vec3.sub_y (v w : Vec3) : (v - w).y = v.y - w.y := rfl

@[simp] theorem Vec3.sub_z (v w : Vec3) : (v - w).z = v.z - w.z := rfl

@[simp] theorem Vec3.neg_x (v : Vec3) : (-v).x = -v.x := rfl

@[simp] theorem Vec3.neg_y (v : Vec3) : (-v).y = -v.y := rfl

@[simp] theorem Vec3.neg_z (v : Vec3) : (-v).z = -v.z := rfl

@[simp] theorem Vec3.smul_x (c : ℝ) (v : Vec3) : (c • v).x = c * v.x := rfl

@[simp] theorem Vec3.smul_y (c : ℝ) (v : Vec3) : (c • v).y = c * v.y := rfl

@[simp] theorem Vec3.smul_z (c : ℝ) (v : Vec3) : (c • v).z = c * v.z := rfl

/-- Row-wise dot product: `(v * n).sum(dim=1)` on one row. -/
def dot (v w : Vec3) : ℝ := v.x * w.x + v.y * w.y + v.z * w.z

/-- Row-wise squared L2 norm: `(v**2).sum(dim=1)` on one row. -/
def normSq (v : Vec3) : ℝ := v.x * v.x + v.y * v.y + v.z * v.z

/-- Row-wise L2 norm: `v.norm(dim=1)` on one row. -/
noncomputable def norm (v : Vec3) : ℝ := Real.sqrt (normSq v)

/-- The `eps` of `torch.nn.functional.normalize` (default `1e-12`). -/
noncomputable def fNormalizeEps : ℝ := 1 / 10 ^ 12

/-- Row of `F.normalize(v, dim=-1)`: `v` divided by `max(‖v‖₂, eps)`. -/
noncomputable def normalize (v : Vec3) : Vec3 :=
  (1 / max (norm v) fNormalizeEps) • v

/-- `reflect(v, n)` from materials.py: `v - 2 * (v*n).sum(dim=1) * n`. -/
def reflect (v n : Vec3) : Vec3 := v - (2 * dot v n) • n

/-- `refract(uv, n, etai_over_etat)` from materials.py, one row. -/
noncomputable def refract (uv n : Vec3) (etai_over_etat : ℝ) : Vec3 :=
  let cos_theta := min (dot (-uv) n) 1
  let r_out_perp := etai_over_etat • (uv + cos_theta • n)
  let r_out_parallel := (-Real.sqrt |1 - normSq r_out_perp|) • n
  r_out_perp + r_out_parallel

/-- `reflectance(cosine, ref_idx)` from materials.py (Schlick), one row. -/
noncomputable def reflectance (cosine ref_idx : ℝ) : ℝ :=
  let r0 := ((1 - ref_idx) / (1 + ref_idx)) ^ 2
  r0 + (1 - r0) * (1 - cosine) ^ 5

theorem normSq_nonneg (v : Vec3) : 0 ≤ normSq v := by
  unfold normSq
  nlinarith [mul_self_nonneg v.x, mul_self_nonneg v.y, mul_self_nonneg v.z]

theorem norm_nonneg_vec (v : Vec3) : 0 ≤ norm v := Real.sqrt_nonneg _

theorem normSq_eq_sq_norm (v : Vec3) : normSq v = norm v ^ 2 :=
  (Real.sq_sqrt (normSq_nonneg v)).symm

theorem norm_eq_one_of_normSq (v : Vec3) (h : normSq v = 1) : norm v = 1 := by
  rw [norm, h, Real.sqrt_one]

theorem normSq_eq_one_of_norm (v : Vec3) (h : norm v = 1) : normSq v = 1 := by
  rw [normSq_eq_sq_norm, h, one_pow]

theorem eps_le_one : fNormalizeEps ≤ 1 := by
  unfold fNormalizeEps; norm_num

theorem eps_pos : 0 < fNormalizeEps := by
  unfold fNormalizeEps; norm_num

theorem one_smul_vec (v : Vec3) : (1 : ℝ) • v = v := by
  apply Vec3.ext_comp <;> simp

/-- Normalizing a vector that already has unit norm returns it unchanged. -/
theorem normalize_of_norm_one (v : Vec3) (h : norm v = 1) : normalize v = v := by
  unfold normalize
  rw [h, max_eq_left eps_le_one]
  simp [one_smul_vec]

theorem norm_smul_vec (c : ℝ) (v : Vec3) : norm (c • v) = |c| * norm v := by
  unfold norm
  have h : normSq (c • v) = c ^ 2 * normSq v := by
    simp only [normSq, Vec3.smul_x, Vec3.smul_y, Vec3.smul_z]; ring
  rw [h, Real.sqrt_mul (by positivity), Real.sqrt_sq_eq_abs]

/-- Normalizing a vector whose norm is at least `eps` yields a unit vector. -/
theorem norm_normalize (v : Vec3) (h : fNormalizeEps ≤ norm v) :
    norm (normalize v) = 1 := by
  have hpos : 0 < norm v := lt_of_lt_of_le eps_pos h
  unfold normalize
  rw [max_eq_left h, norm_smul_vec, abs_of_pos (by positivity)]
  field_simp

/-- Lagrange/Cauchy-Schwarz bound for the row-wise dot product. -/
theorem dot_sq_le (v n : Vec3) : dot v n ^ 2 ≤ normSq v * normSq n := by
  unfold dot normSq
  nlinarith [sq_nonneg (v.x * n.y - v.y * n.x), sq_nonneg (v.x * n.z - v.z * n.x),
    sq_nonneg (v.y * n.z - v.z * n.y)]

theorem dot_neg_left (v n : Vec3) : dot (-v) n = -dot v n := by
  unfold dot; simp; ring

/-- Reflection about a unit normal preserves the squared norm. -/
theorem normSq_reflect (v n : Vec3) (hn : normSq n = 1) :
    normSq (reflect v n) = normSq v := by
  unfold normSq at hn
  simp only [reflect, normSq, dot, Vec3.sub_x, Vec3.sub_y, Vec3.sub_z,
    Vec3.smul_x, Vec3.smul_y, Vec3.smul_z]
  linear_combination (4 * (v.x * n.x + v.y * n.y + v.z * n.z) ^ 2) * hn

/-- Squared norm of the perpendicular refraction component, in scalar form. -/
theorem perp_normSq_formula (uv n : Vec3) (eta c : ℝ) :
    normSq (eta • (uv + c • n)) =
      eta ^ 2 * (normSq uv + 2 * c * dot uv n + c ^ 2 * normSq n) := by
  simp only [normSq, dot, Vec3.smul_x, Vec3.smul_y, Vec3.smul_z,
    Vec3.add_x, Vec3.add_y, Vec3.add_z]
  ring

/-- Squared norm of the full refraction output, in scalar form. -/
theorem refract_normSq_formula (uv n : Vec3) (eta c k : ℝ) :
    normSq (eta • (uv + c • n) + (-k) • n) =
      eta ^ 2 * normSq uv + 2 * eta ^ 2 * c * dot uv n +
        eta ^ 2 * c ^ 2 * normSq n - 2 * k * eta * dot uv n -
        2 * k * eta * c * normSq n + k ^ 2 * normSq n := by
  simp only [normSq, dot, Vec3.smul_x, Vec3.smul_y, Vec3.smul_z,
    Vec3.add_x, Vec3.add_y, Vec3.add_z]
  ring

/-- A ray row of the N×3×2 batch: `r_in[i, :, 0]` is the origin,
`r_in[i, :, 1]` the direction. -/
structure Ray where
  origin : Vec3
  dir : Vec3

/-- The fields of the external hit record that the materials consume. -/
structure HitRecord (N : ℕ) where
  point : Fin N → Vec3
  normal : Fin N → Vec3
  front_face : Fin N → Bool

/-- The `(scatter_mask, attenuation, new_rays)` triple returned by
every `scatter` method; `new_rays` pairs each origin with a direction the
way `torch.stack([new_origin, new_direction], dim=-1)` does. -/
structure ScatterResult (N : ℕ) where
  scatter_mask : Fin N → Bool
  attenuation : Fin N → Vec3
  new_rays : Fin N → Ray

/-- The `1e-8` degenerate-direction threshold of `Lambertian.scatter`. -/
noncomputable def degenEps : ℝ := 1 / 10 ^ 8

/-- `Lambertian.scatter`, with the `random_unit_vector((N, 3))` draw passed
explicitly as `u`.  Per row: the candidate direction is `normal + u`; rows
whose candidate norm is below `1e-8` fall back to the bare normal; the
result is then `F.normalize`d.  Mask is all ones, attenuation the albedo
expanded over the batch, origin the hit point. -/
noncomputable def lambertianScatter {N : ℕ} (albedo : Vec3)
    (r_in : Fin N → Ray) (rec : HitRecord N) (u : Fin N → Vec3) :
    ScatterResult N :=
  { scatter_mask := fun _ => true
    attenuation := fun _ => albedo
    new_rays := fun i =>
      { origin := rec.point i
        dir := normalize
          (if norm (rec.normal i + u i) < degenEps then rec.normal i
           else rec.normal i + u i) } }

/-- `Metal.__init__`: the stored fuzz is `max(0.0, min(fuzz, 1.0))`. -/
noncomputable def metalFuzz (fuzz : ℝ) : ℝ := max 0 (min fuzz 1)

/-- The new direction `Metal.scatter` computes for one row: normalize the
incoming direction, reflect it about the normal, add `fuzz` times the random
unit vector, and `F.normalize` the result. -/
noncomputable def metalDir (fuzz : ℝ) (d n u : Vec3) : Vec3 :=
  normalize (reflect (normalize d) n + fuzz • u)

open Classical in
/-- `Metal.scatter`, with the random unit vectors passed explicitly as `u`
and the (already clamped) stored fuzz as `fuzz`.  The mask is
`dot(reflected, normal) > 0` per row; attenuation is the albedo expanded. -/
noncomputable def metalScatter {N : ℕ} (albedo : Vec3) (fuzz : ℝ)
    (r_in : Fin N → Ray) (rec : HitRecord N) (u : Fin N → Vec3) :
    ScatterResult N :=
  { scatter_mask := fun i =>
      if 0 < dot (metalDir fuzz ((r_in i).dir) (rec.normal i) (u i)) (rec.normal i)
      then true else false
    attenuation := fun _ => albedo
    new_rays := fun i =>
      { origin := rec.point i
        dir := metalDir fuzz ((r_in i).dir) (rec.normal i) (u i) } }

/-- The per-row index quotient of `Dielectric.scatter`: the `torch.where`
on `front_face` selecting `1/refraction_index` against `refraction_index`. -/
noncomputable def dielectricEta (refraction_index : ℝ) (ff : Bool) : ℝ :=
  if ff then 1 / refraction_index else refraction_index

open Classical in
/-- The new direction `Dielectric.scatter` computes for one row, with the
uniform draw passed explicitly as `rnd`: normalize the incoming direction,
compute `cos_theta` (clamped at 1) and `sin_theta`, force reflection when
the quotient times `sin_theta` exceeds 1, otherwise reflect when the
Schlick reflectance beats the draw, and select between the unconditionally
computed reflected and refracted candidates. -/
noncomputable def dielectricDir (refraction_index : ℝ) (d n : Vec3)
    (ff : Bool) (rnd : ℝ) : Vec3 :=
  let unit_direction := normalize d
  let eta := dielectricEta refraction_index ff
  let cos_theta := min (dot (-unit_direction) n) 1
  let sin_theta := Real.sqrt (1 - cos_theta ^ 2)
  let cannot_refract := eta * sin_theta > 1
  let reflect_prob := reflectance cos_theta eta
  let should_reflect := cannot_refract ∨ reflect_prob > rnd
  if should_reflect then reflect unit_direction n
  else refract unit_direction n eta

/-- `Dielectric.scatter`, with the `torch.rand(N, 1)` draw passed explicitly
as `rnd`.  Mask is all ones and attenuation the constant (1,1,1). -/
noncomputable def dielectricScatter {N : ℕ} (refraction_index : ℝ)
    (r_in : Fin N → Ray) (rec : HitRecord N) (rnd : Fin N → ℝ) :
    ScatterResult N :=
  { scatter_mask := fun _ => true
    attenuation := fun _ => ⟨1, 1, 1⟩
    new_rays := fun i =>
      { origin := rec.point i
        dir := dielectricDir refraction_index ((r_in i).dir) (rec.normal i)
          (rec.front_face i) (rnd i) } }

/-- Specification-side restatement of refraction: per row,
`cos_theta = min(dot(-uv, n), 1.0)`, the perpendicular component is
`eta * (uv + cos_theta * n)`, the parallel component is
`-sqrt(|1 - |r_perp|^2|) * n`, and the result is their sum, with no
total-internal-reflection check anywhere. -/
noncomputable def refractSpec (uv n : Vec3) (eta : ℝ) : Vec3 :=
  eta • (uv + min (dot (-uv) n) 1 • n) +
    (-Real.sqrt |1 - normSq (eta • (uv + min (dot (-uv) n) 1 • n))|) • n

/-- C2: `refract(uv, n, eta)` returns, per row, exactly
`r_perp + r_parallel` with `cos_theta = min(dot(-uv,n), 1)`,
`r_perp = eta*(uv + cos_theta*n)` and `r_parallel = -sqrt(|1-|r_perp|^2|)*n`,
for every input whatsoever — it performs no total-internal-reflection
check of its own. -/
theorem refract_eq_refractSpec (uv n : Vec3) (eta : ℝ) :
    refract uv n eta = refractSpec uv n eta := rfl

/-- C6: for every vector `v` and unit normal `n`, `reflect(v, n)` equals
`v - 2*dot(v,n)*n`, its component along `n` is the reverse of that of `v`,
and its component perpendicular to `n` equals that of `v`. -/
theorem reflect_components (v n : Vec3) (hn : norm n = 1) :
    reflect v n = v - (2 * dot v n) • n ∧
    dot (reflect v n) n = -dot v n ∧
    reflect v n - dot (reflect v n) n • n = v - dot v n • n := by
  have hs : normSq n = 1 := normSq_eq_one_of_norm n hn
  unfold normSq at hs
  have h2 : dot (reflect v n) n = -dot v n := by
    simp only [reflect, dot, Vec3.sub_x, Vec3.sub_y, Vec3.sub_z,
      Vec3.smul_x, Vec3.smul_y, Vec3.smul_z]
    linear_combination (-2 * (v.x * n.x + v.y * n.y + v.z * n.z)) * hs
  refine ⟨rfl, h2, ?_⟩
  rw [h2]
  apply Vec3.ext_comp <;>
    simp only [reflect, dot, Vec3.sub_x, Vec3.sub_y, Vec3.sub_z,
      Vec3.smul_x, Vec3.smul_y, Vec3.smul_z, Vec3.neg_x, Vec3.neg_y,
      Vec3.neg_z, neg_mul, neg_neg] <;>
    ring

theorem reflect_components_witness :
    reflect ⟨3, 4, 5⟩ ⟨0, 1, 0⟩ = ⟨3, 4, 5⟩ - (2 * dot ⟨3, 4, 5⟩ ⟨0, 1, 0⟩) • ⟨0, 1, 0⟩ ∧
    dot (reflect ⟨3, 4, 5⟩ ⟨0, 1, 0⟩) ⟨0, 1, 0⟩ = -dot ⟨3, 4, 5⟩ ⟨0, 1, 0⟩ ∧
    reflect ⟨3, 4, 5⟩ ⟨0, 1, 0⟩ - dot (reflect ⟨3, 4, 5⟩ ⟨0, 1, 0⟩) ⟨0, 1, 0⟩ • ⟨0, 1, 0⟩ =
      ⟨3, 4, 5⟩ - dot ⟨3, 4, 5⟩ ⟨0, 1, 0⟩ • ⟨0, 1, 0⟩ :=
  reflect_components ⟨3, 4, 5⟩ ⟨0, 1, 0⟩
    (norm_eq_one_of_normSq _ (by norm_num [normSq]))

/-- C7: at `cosine = 1` the Schlick reflectance collapses to `r0` exactly,
and for fixed positive `ref_idx` it is monotonically non-decreasing as the
cosine decreases from 1 to 0. -/
theorem reflectance_r0_and_monotone (ref_idx : ℝ) (h : 0 < ref_idx) :
    reflectance 1 ref_idx = ((1 - ref_idx) / (1 + ref_idx)) ^ 2 ∧
    ∀ c1 c2 : ℝ, 0 ≤ c2 → c2 ≤ c1 → c1 ≤ 1 →
      reflectance c1 ref_idx ≤ reflectance c2 ref_idx := by
  constructor
  · unfold reflectance; norm_num
  · intro c1 c2 h0 h21 h11
    unfold reflectance
    have hden : (0 : ℝ) < (1 + ref_idx) ^ 2 := by nlinarith
    have hr0 : ((1 - ref_idx) / (1 + ref_idx)) ^ 2 ≤ 1 := by
      rw [div_pow, div_le_one hden]
      nlinarith
    have hp : (1 - c1) ^ 5 ≤ (1 - c2) ^ 5 :=
      pow_le_pow_left₀ (by linarith) (by linarith) 5
    have key := mul_le_mul_of_nonneg_left hp
      (by linarith : (0 : ℝ) ≤ 1 - ((1 - ref_idx) / (1 + ref_idx)) ^ 2)
    simp only []
    linarith

theorem reflectance_r0_and_monotone_witness :
    reflectance 1 2 = ((1 - 2) / (1 + 2) : ℝ) ^ 2 ∧
    reflectance 1 2 ≤ reflectance 0 2 := by
  have h := reflectance_r0_and_monotone 2 (by norm_num)
  exact ⟨h.1, h.2 1 0 le_rfl zero_le_one le_rfl⟩

/-- C8: `Dielectric.scatter` returns an all-true scatter mask and the
constant white attenuation (1,1,1), for every batch, element and random
draw. -/
theorem dielectric_mask_and_attenuation {N : ℕ} (ri : ℝ) (r_in : Fin N → Ray)
    (rec : HitRecord N) (rnd : Fin N → ℝ) (i : Fin N) :
    (dielectricScatter ri r_in rec rnd).scatter_mask i = true ∧
    (dielectricScatter ri r_in rec rnd).attenuation i = ⟨1, 1, 1⟩ :=
  ⟨rfl, rfl⟩

/-- C9: the fuzz value stored by the Metal constructor is the input clamped
to [0, 1]: it always lies in [0, 1], equals the input when the input is
already in [0, 1], is 0 for negative input and 1 for input above 1. -/
theorem metalFuzz_clamps (fuzz : ℝ) :
    0 ≤ metalFuzz fuzz ∧ metalFuzz fuzz ≤ 1 ∧
    (0 ≤ fuzz → fuzz ≤ 1 → metalFuzz fuzz = fuzz) ∧
    (fuzz < 0 → metalFuzz fuzz = 0) ∧
    (1 < fuzz → metalFuzz fuzz = 1) := by
  unfold metalFuzz
  refine ⟨le_max_left _ _, max_le (by norm_num) (min_le_right _ _), ?_, ?_, ?_⟩
  · intro h0 h1
    rw [min_eq_left h1, max_eq_right h0]
  · intro h
    rw [min_eq_left (by linarith : fuzz ≤ 1), max_eq_left h.le]
  · intro h
    rw [min_eq_right h.le, max_eq_right (by norm_num : (0 : ℝ) ≤ 1)]

theorem metalFuzz_clamps_witness :
    metalFuzz 2 = 1 ∧ metalFuzz (-1) = 0 ∧ metalFuzz (1 / 2) = 1 / 2 :=
  ⟨(metalFuzz_clamps 2).2.2.2.2 (by norm_num),
   (metalFuzz_clamps (-1)).2.2.2.1 (by norm_num),
   (metalFuzz_clamps (1 / 2)).2.2.1 (by norm_num) (by norm_num)⟩

/-- C1: for every batch element whose refraction quotient times `sin_theta`
exceeds 1 (total internal reflection), the direction returned by
`Dielectric.scatter` is the reflected direction
`reflect(unit incoming direction, normal)`, for every value of the uniform
draw of that element. -/
theorem dielectric_tir_reflects {N : ℕ} (ri : ℝ) (r_in : Fin N → Ray)
    (rec : HitRecord N) (rnd : Fin N → ℝ) (i : Fin N)
    (h : dielectricEta ri (rec.front_face i) *
      Real.sqrt (1 - min (dot (-normalize ((r_in i).dir)) (rec.normal i)) 1 ^ 2)
        > 1) :
    ((dielectricScatter ri r_in rec rnd).new_rays i).dir =
      reflect (normalize ((r_in i).dir)) (rec.normal i) := by
  show dielectricDir ri ((r_in i).dir) (rec.normal i) (rec.front_face i) (rnd i)
    = _
  simp only [dielectricDir]
  rw [if_pos (Or.inl h)]

theorem dielectric_tir_reflects_witness :
    ((dielectricScatter (3 / 2) (fun _ : Fin 1 => ⟨⟨0, 0, 0⟩, ⟨1, 0, 0⟩⟩)
        ⟨fun _ => ⟨0, 0, 0⟩, fun _ => ⟨0, 1, 0⟩, fun _ => false⟩
        (fun _ => 0)).new_rays 0).dir =
      reflect (normalize ⟨1, 0, 0⟩) ⟨0, 1, 0⟩ := by
  apply dielectric_tir_reflects
  have hu : normalize (⟨1, 0, 0⟩ : Vec3) = ⟨1, 0, 0⟩ :=
    normalize_of_norm_one _ (norm_eq_one_of_normSq _ (by norm_num [normSq]))
  show dielectricEta (3 / 2) false *
      Real.sqrt (1 - min (dot (-normalize (⟨1, 0, 0⟩ : Vec3)) ⟨0, 1, 0⟩) 1 ^ 2)
        > 1
  rw [hu, show dot (-(⟨1, 0, 0⟩ : Vec3)) ⟨0, 1, 0⟩ = 0 from by norm_num [dot],
    min_eq_left zero_le_one]
  norm_num [dielectricEta, Real.sqrt_one]

/-- C5: with `refraction_index = 1` and `front_face = true` the per-element
quotient is 1, and for a unit normal and unit incoming direction with
non-negative incidence cosine the refracted direction equals the incoming
direction: the ray passes through undeviated. -/
theorem dielectric_index_one_passthrough (v n : Vec3) (hv : norm v = 1)
    (hn : norm n = 1) (hc : 0 ≤ dot (-v) n) :
    refract v n (dielectricEta 1 true) = v := by
  have hv2 : normSq v = 1 := normSq_eq_one_of_norm v hv
  have hn2 : normSq n = 1 := normSq_eq_one_of_norm n hn
  have heta : dielectricEta 1 true = 1 := by unfold dielectricEta; norm_num
  rw [heta]
  have hna : dot v n = -dot (-v) n := by rw [dot_neg_left]; ring
  have ha1 : dot (-v) n ≤ 1 := by
    have h2 := dot_sq_le v n
    rw [hv2, hn2, hna] at h2
    nlinarith [hc]
  simp only [refract]
  rw [min_eq_left ha1]
  have hperp : normSq ((1 : ℝ) • (v + dot (-v) n • n)) = 1 - dot (-v) n ^ 2 := by
    rw [perp_normSq_formula, hv2, hn2, hna]
    ring
  rw [hperp]
  have habs : |1 - (1 - dot (-v) n ^ 2)| = dot (-v) n ^ 2 := by
    rw [show (1 : ℝ) - (1 - dot (-v) n ^ 2) = dot (-v) n ^ 2 from by ring,
      abs_of_nonneg (sq_nonneg _)]
  rw [habs, Real.sqrt_sq hc]
  apply Vec3.ext_comp <;>
    simp only [Vec3.add_x, Vec3.add_y, Vec3.add_z, Vec3.smul_x, Vec3.smul_y,
      Vec3.smul_z, Vec3.neg_x, Vec3.neg_y, Vec3.neg_z, dot] <;>
    ring

theorem dielectric_index_one_passthrough_witness :
    refract ⟨0, 0, -1⟩ ⟨0, 0, 1⟩ (dielectricEta 1 true) = ⟨0, 0, -1⟩ :=
  dielectric_index_one_passthrough ⟨0, 0, -1⟩ ⟨0, 0, 1⟩
    (norm_eq_one_of_normSq _ (by norm_num [normSq]))
    (norm_eq_one_of_normSq _ (by norm_num [normSq]))
    (by norm_num [dot])

/-- C4: for every batch with unit normals and every random sample,
`Lambertian.scatter` returns an all-true mask and a unit-length, nonzero
direction for every element — including the anti-parallel sample, where
the degenerate candidate is replaced by the bare normal. -/
theorem lambertian_scatter_props {N : ℕ} (albedo : Vec3) (r_in : Fin N → Ray)
    (rec : HitRecord N) (u : Fin N → Vec3) (i : Fin N)
    (hn : norm (rec.normal i) = 1) :
    (lambertianScatter albedo r_in rec u).scatter_mask i = true ∧
    norm (((lambertianScatter albedo r_in rec u).new_rays i).dir) = 1 ∧
    ((lambertianScatter albedo r_in rec u).new_rays i).dir ≠ ⟨0, 0, 0⟩ := by
  have hdir : norm (((lambertianScatter albedo r_in rec u).new_rays i).dir)
      = 1 := by
    show norm (normalize
      (if norm (rec.normal i + u i) < degenEps then rec.normal i
       else rec.normal i + u i)) = 1
    by_cases hlt : norm (rec.normal i + u i) < degenEps
    · rw [if_pos hlt, normalize_of_norm_one _ hn]
      exact hn
    · rw [if_neg hlt]
      apply norm_normalize
      have : degenEps ≤ norm (rec.normal i + u i) := le_of_not_lt hlt
      have heps : fNormalizeEps ≤ degenEps := by
        unfold fNormalizeEps degenEps; norm_num
      linarith
  refine ⟨rfl, hdir, fun h => ?_⟩
  rw [h] at hdir
  rw [norm, show normSq ⟨0, 0, 0⟩ = 0 from by norm_num [normSq],
    Real.sqrt_zero] at hdir
  exact zero_ne_one hdir

theorem lambertian_scatter_props_witness :
    (lambertianScatter ⟨1, 0, 0⟩ (fun _ : Fin 1 => ⟨⟨0, 0, 0⟩, ⟨0, 0, 1⟩⟩)
      ⟨fun _ => ⟨0, 0, 0⟩, fun _ => ⟨0, 1, 0⟩, fun _ => true⟩
      (fun _ => ⟨0, -1, 0⟩)).scatter_mask 0 = true ∧
    norm (((lambertianScatter ⟨1, 0, 0⟩
      (fun _ : Fin 1 => ⟨⟨0, 0, 0⟩, ⟨0, 0, 1⟩⟩)
      ⟨fun _ => ⟨0, 0, 0⟩, fun _ => ⟨0, 1, 0⟩, fun _ => true⟩
      (fun _ => ⟨0, -1, 0⟩)).new_rays 0).dir) = 1 ∧
    ((lambertianScatter ⟨1, 0, 0⟩ (fun _ : Fin 1 => ⟨⟨0, 0, 0⟩, ⟨0, 0, 1⟩⟩)
      ⟨fun _ => ⟨0, 0, 0⟩, fun _ => ⟨0, 1, 0⟩, fun _ => true⟩
      (fun _ => ⟨0, -1, 0⟩)).new_rays 0).dir ≠ ⟨0, 0, 0⟩ :=
  lambertian_scatter_props ⟨1, 0, 0⟩ _ _ _ 0
    (norm_eq_one_of_normSq _ (by norm_num [normSq]))

/-- C3: for Metal with constructor fuzz 0, on unit normals and a
normalizable incoming direction, the returned direction is exactly the
mirror reflection of the normalized incoming direction (the perturbation
and re-normalization change nothing), and the mask is false exactly when
that geometric reflection does not point to the normal's side. -/
theorem metal_fuzz_zero_mirror {N : ℕ} (albedo : Vec3) (r_in : Fin N → Ray)
    (rec : HitRecord N) (u : Fin N → Vec3) (i : Fin N)
    (hn : norm (rec.normal i) = 1)
    (hd : fNormalizeEps ≤ norm ((r_in i).dir)) :
    ((metalScatter albedo (metalFuzz 0) r_in rec u).new_rays i).dir =
      reflect (normalize ((r_in i).dir)) (rec.normal i) ∧
    ((metalScatter albedo (metalFuzz 0) r_in rec u).scatter_mask i = false ↔
      ¬ 0 < dot (reflect (normalize ((r_in i).dir)) (rec.normal i))
        (rec.normal i)) := by
  have hf : metalFuzz 0 = 0 := by unfold metalFuzz; norm_num
  have key : metalDir (metalFuzz 0) ((r_in i).dir) (rec.normal i) (u i) =
      reflect (normalize ((r_in i).dir)) (rec.normal i) := by
    unfold metalDir
    rw [hf]
    have hadd : reflect (normalize ((r_in i).dir)) (rec.normal i) +
        (0 : ℝ) • u i = reflect (normalize ((r_in i).dir)) (rec.normal i) := by
      apply Vec3.ext_comp <;> simp
    rw [hadd]
    apply normalize_of_norm_one
    have h1 : norm (normalize ((r_in i).dir)) = 1 := norm_normalize _ hd
    have h2 : normSq (reflect (normalize ((r_in i).dir)) (rec.normal i)) =
        normSq (normalize ((r_in i).dir)) :=
      normSq_reflect _ _ (normSq_eq_one_of_norm _ hn)
    rw [norm, h2, ← norm, h1]
  constructor
  · show metalDir (metalFuzz 0) ((r_in i).dir) (rec.normal i) (u i) = _
    exact key
  · show (if 0 < dot (metalDir (metalFuzz 0) ((r_in i).dir) (rec.normal i)
        (u i)) (rec.normal i) then true else false) = false ↔ _
    rw [key]
    by_cases hpos : 0 < dot (reflect (normalize ((r_in i).dir))
        (rec.normal i)) (rec.normal i)
    · simp [hpos]
    · simp [hpos]

theorem metal_fuzz_zero_mirror_witness :
    ((metalScatter ⟨1, 1, 1⟩ (metalFuzz 0)
        (fun _ : Fin 1 => ⟨⟨0, 0, 0⟩, ⟨1, 0, 0⟩⟩)
        ⟨fun _ => ⟨0, 0, 0⟩, fun _ => ⟨0, 1, 0⟩, fun _ => true⟩
        (fun _ => ⟨0, 0, 1⟩)).new_rays 0).dir =
      reflect (normalize ⟨1, 0, 0⟩) ⟨0, 1, 0⟩ ∧
    ((metalScatter ⟨1, 1, 1⟩ (metalFuzz 0)
        (fun _ : Fin 1 => ⟨⟨0, 0, 0⟩, ⟨1, 0, 0⟩⟩)
        ⟨fun _ => ⟨0, 0, 0⟩, fun _ => ⟨0, 1, 0⟩, fun _ => true⟩
        (fun _ => ⟨0, 0, 1⟩)).scatter_mask 0 = false ↔
      ¬ 0 < dot (reflect (normalize ⟨1, 0, 0⟩) ⟨0, 1, 0⟩) ⟨0, 1, 0⟩) :=
  metal_fuzz_zero_mirror ⟨1, 1, 1⟩ _ _ _ 0
    (norm_eq_one_of_normSq _ (by norm_num [normSq]))
    (by
      rw [norm_eq_one_of_normSq _ (by norm_num [normSq])]
      exact eps_le_one)

/-- C10 counterexample: the claim as stated quantifies over every
`eta_ratio` with `eta_ratio * sin_theta ≤ 1`; at `uv = (1,0,0)`,
`n = (0,1,0)`, `eta_ratio = -5` all its hypotheses hold (unit inputs,
cosine 0 in [0,1], `-5 * sin_theta = -5 ≤ 1`) yet the returned vector has
norm 7, not 1. -/
theorem refract_unit_counterexample :
    norm (⟨1, 0, 0⟩ : Vec3) = 1 ∧ norm (⟨0, 1, 0⟩ : Vec3) = 1 ∧
    0 ≤ dot (-(⟨1, 0, 0⟩ : Vec3)) ⟨0, 1, 0⟩ ∧
    dot (-(⟨1, 0, 0⟩ : Vec3)) ⟨0, 1, 0⟩ ≤ 1 ∧
    (-5 : ℝ) * Real.sqrt (1 - dot (-(⟨1, 0, 0⟩ : Vec3)) ⟨0, 1, 0⟩ ^ 2) ≤ 1 ∧
    norm (refract ⟨1, 0, 0⟩ ⟨0, 1, 0⟩ (-5)) ≠ 1 := by
  have hd : dot (-(⟨1, 0, 0⟩ : Vec3)) ⟨0, 1, 0⟩ = 0 := by norm_num [dot]
  have hmin : min (dot (-(⟨1, 0, 0⟩ : Vec3)) ⟨0, 1, 0⟩) 1 = 0 := by
    rw [hd]; exact min_eq_left zero_le_one
  have hval : refract ⟨1, 0, 0⟩ ⟨0, 1, 0⟩ (-5) = ⟨-5, -Real.sqrt 24, 0⟩ := by
    simp only [refract, hmin]
    have hns : normSq ((-5 : ℝ) • ((⟨1, 0, 0⟩ : Vec3) + (0 : ℝ) • ⟨0, 1, 0⟩))
        = 25 := by norm_num [normSq]
    rw [hns, show |(1 : ℝ) - 25| = 24 from by norm_num]
    apply Vec3.ext_comp <;> norm_num
  have hnorm : norm (⟨-5, -Real.sqrt 24, 0⟩ : Vec3) = 7 := by
    have hsq : (-Real.sqrt 24) * (-Real.sqrt 24) = 24 := by
      rw [neg_mul_neg, Real.mul_self_sqrt (by norm_num)]
    rw [norm, show normSq (⟨-5, -Real.sqrt 24, 0⟩ : Vec3) =
      (-5) * (-5) + (-Real.sqrt 24) * (-Real.sqrt 24) + 0 * 0 from rfl, hsq,
      show (-5 : ℝ) * (-5) + 24 + 0 * 0 = 7 ^ 2 from by norm_num,
      Real.sqrt_sq (by norm_num)]
  refine ⟨norm_eq_one_of_normSq _ (by norm_num [normSq]),
    norm_eq_one_of_normSq _ (by norm_num [normSq]),
    by rw [hd], by rw [hd]; norm_num, ?_, ?_⟩
  · rw [hd]
    norm_num [Real.sqrt_one]
  · rw [hval, hnorm]
    norm_num

/-- C10 (amended with the non-negativity of the quotient the
counterexample forces): for unit `uv` and `n` with the incidence cosine
`dot(-uv, n)` in [0,1] and every `eta_ratio ≥ 0` with
`eta_ratio * sin_theta ≤ 1` (no total internal reflection), the vector
returned by `refract` is unit length. -/
theorem refract_unit_norm (uv n : Vec3) (eta : ℝ) (huv : norm uv = 1)
    (hn : norm n = 1) (h0 : 0 ≤ dot (-uv) n) (h1 : dot (-uv) n ≤ 1)
    (heta : 0 ≤ eta)
    (hsnell : eta * Real.sqrt (1 - dot (-uv) n ^ 2) ≤ 1) :
    norm (refract uv n eta) = 1 := by
  have huv2 : normSq uv = 1 := normSq_eq_one_of_norm uv huv
  have hn2 : normSq n = 1 := normSq_eq_one_of_norm n hn
  have hna : dot uv n = -dot (-uv) n := by rw [dot_neg_left]; ring
  have hsin0 : (0 : ℝ) ≤ 1 - dot (-uv) n ^ 2 := by nlinarith [h0, h1]
  have hsin2 : Real.sqrt (1 - dot (-uv) n ^ 2) ^ 2 = 1 - dot (-uv) n ^ 2 :=
    Real.sq_sqrt hsin0
  have hp : 0 ≤ eta * Real.sqrt (1 - dot (-uv) n ^ 2) :=
    mul_nonneg heta (Real.sqrt_nonneg _)
  have hsq1 : (eta * Real.sqrt (1 - dot (-uv) n ^ 2)) ^ 2 ≤ 1 := by
    nlinarith [mul_nonneg hp
      (by linarith : (0 : ℝ) ≤ 1 - eta * Real.sqrt (1 - dot (-uv) n ^ 2))]
  have hle : eta ^ 2 * (1 - dot (-uv) n ^ 2) ≤ 1 := by
    rw [mul_pow, hsin2] at hsq1
    exact hsq1
  apply norm_eq_one_of_normSq
  simp only [refract]
  rw [min_eq_left h1]
  have hperp : normSq (eta • (uv + dot (-uv) n • n)) =
      eta ^ 2 * (1 - dot (-uv) n ^ 2) := by
    rw [perp_normSq_formula, huv2, hn2, hna]
    ring
  rw [hperp]
  have habs : |1 - eta ^ 2 * (1 - dot (-uv) n ^ 2)| =
      1 - eta ^ 2 * (1 - dot (-uv) n ^ 2) := abs_of_nonneg (by linarith)
  rw [habs]
  have hk2 : Real.sqrt (1 - eta ^ 2 * (1 - dot (-uv) n ^ 2)) ^ 2 =
      1 - eta ^ 2 * (1 - dot (-uv) n ^ 2) := Real.sq_sqrt (by linarith)
  rw [refract_normSq_formula, huv2, hn2]
  linear_combination (2 * eta ^ 2 * dot (-uv) n -
      2 * Real.sqrt (1 - eta ^ 2 * (1 - dot (-uv) n ^ 2)) * eta) * hna + hk2

theorem refract_unit_norm_witness :
    norm (refract ⟨0, -1, 0⟩ ⟨0, 1, 0⟩ 2) = 1 :=
  refract_unit_norm ⟨0, -1, 0⟩ ⟨0, 1, 0⟩ 2
    (norm_eq_one_of_normSq _ (by norm_num [normSq]))
    (norm_eq_one_of_normSq _ (by norm_num [normSq]))
    (by norm_num [dot]) (by norm_num [dot])
    (by norm_num)
    (by
      rw [show dot (-(⟨0, -1, 0⟩ : Vec3)) ⟨0, 1, 0⟩ = 1 from by norm_num [dot]]
      norm_num [Real.sqrt_zero])

end Materials
